import Mathlib

/-!
Shallow embedding of the shl-assign recommendation pipeline.

The definitions below are direct translations of the Python source:
  * backend/recommender_local.py   (LocalRecommendationEngine)
  * backend/embedding_pipeline_local.py (LocalEmbeddingPipeline)
  * backend/recommender_api.py     (APIRecommendationEngine)
  * backend/main.py                (the /recommend FastAPI handler)

Python strings are modelled as Lean `String`; the string helpers used by
the source (`str.lower`, `str.strip`, `str.split`, `str.replace`,
substring membership `in`, `', '.join`) are re-implemented here over
`List Char` so that every definition is executable by the kernel.
Whitespace is the ASCII whitespace set (the inputs of this code base are
ASCII).  Python dicts with optional keys are modelled as structures with
`Option` fields; `dict.get(k, d)` becomes `Option.getD`.
-/

set_option maxRecDepth 4000

/-- ASCII model of Python's whitespace class (`str.strip`, `\s`, `str.split()`). -/
def pyWs (c : Char) : Bool :=
  c = ' ' || c = '\t' || c = '\n' || c = '\r' || c = '\x0b' || c = '\x0c'

/-- Model of Python `str.strip()` on the character list: drop whitespace from
both ends. -/
def stripL (l : List Char) : List Char :=
  ((l.dropWhile pyWs).reverse.dropWhile pyWs).reverse

/-- Model of Python `str.strip()`. -/
def pyStrip (s : String) : String :=
  String.mk (stripL s.data)

/-- Model of Python `str.lower()` (ASCII). -/
def pyLower (s : String) : String :=
  String.mk (s.data.map Char.toLower)

/-- Model of Python `str.split(sep)` for a one-character separator: splits at
every occurrence of the separator, keeping empty pieces (so
`''.split(',') = ['']`). -/
def splitOnC (sep : Char) : List Char → List (List Char)
  | [] => [[]]
  | c :: rest =>
    if c = sep then [] :: splitOnC sep rest
    else
      match splitOnC sep rest with
      | [] => [[c]]
      | p :: ps => (c :: p) :: ps

/-- Model of Python substring membership `pat in s` on character lists. -/
def isSubL (pat : List Char) : List Char → Bool
  | [] => pat.isEmpty
  | c :: rest => pat.isPrefixOf (c :: rest) || isSubL pat rest

/-- Model of Python substring membership `pat in s` for strings. -/
def isSubStr (pat s : String) : Bool :=
  isSubL pat.data s.data

/-- Model of Python `sep.join(parts)`. -/
def joinSep (sep : String) : List String → String
  | [] => ""
  | [t] => t
  | t :: ts => t ++ sep ++ joinSep sep ts

/-- Fuel-driven worker for `replaceAll`; the fuel is a step bound that makes
the recursion structural (each step consumes at least one character, so fuel
equal to the length of the input is always enough, see
`replaceAllFuel_fuel_irrel`). -/
def replaceAllFuel (pat repl : List Char) : Nat → List Char → List Char
  | _, [] => []
  | 0, s => s
  | fuel + 1, c :: rest =>
    if pat ≠ [] ∧ pat.isPrefixOf (c :: rest) then
      repl ++ replaceAllFuel pat repl fuel (rest.drop (pat.length - 1))
    else
      c :: replaceAllFuel pat repl fuel rest

/-- Model of Python `s.replace(pat, repl)` (all non-overlapping occurrences,
left to right) for a non-empty pattern. -/
def replaceAll (pat repl : List Char) (s : List Char) : List Char :=
  replaceAllFuel pat repl s.length s

/-- Model of Python `str.replace` at the `String` level. -/
def pyReplace (s pat repl : String) : String :=
  String.mk (replaceAll pat.data repl.data s.data)

/-- Model of Python `str.split()` with no argument: split on whitespace runs,
dropping empty pieces. -/
def pySplitWs (l : List Char) : List (List Char) :=
  (l.splitOnP pyWs).filter (fun p => ¬ p.isEmpty)

/-- The `[^\s]+` one-or-more requirement of the URL regex: the character at
offset `n` (just past the matched scheme) exists and is not whitespace. -/
def hasNonWs (n : Nat) (l : List Char) : Bool :=
  match l.drop n with
  | [] => false
  | d :: _ => ¬ pyWs d

/-- Leftmost match of the regex `https?://[^\s]+` used by
`extract_url_context` (recommender_local.py line 38): scan for the first
position where `http://` or `https://` starts *and is followed by at least
one non-whitespace character* (the `[^\s]+` part), and take the maximal run
of non-whitespace characters from there.  A bare scheme followed by
whitespace or the end of the string is no match, exactly as for
`re.findall`; since `http://` and `https://` cannot both be prefixes at the
same position, no further backtracking cases arise.  Returns `none` when
`re.findall` would return an empty list. -/
def findUrl : List Char → Option (List Char)
  | [] => none
  | c :: rest =>
    if (("http://").data.isPrefixOf (c :: rest) && hasNonWs 7 (c :: rest)) ||
        (("https://").data.isPrefixOf (c :: rest) && hasNonWs 8 (c :: rest)) then
      some ((c :: rest).takeWhile (fun ch => ¬ pyWs ch))
    else
      findUrl rest

/-- `LocalRecommendationEngine.extract_url_context`
(recommender_local.py lines 33-56). -/
def extract_url_context (query : String) : String :=
  match findUrl query.data with
  | none => query
  | some url =>
    let clean_url := replaceAll ("www.").data [] (replaceAll ("http://").data []
      (replaceAll ("https://").data [] url))
    let parts := splitOnC '/' clean_url
    let keywords := parts.flatMap (fun part =>
      (pySplitWs (replaceAll ("_").data (" ").data
        (replaceAll ("-").data (" ").data part))).filter (fun w => w.length > 2))
    String.mk (List.intercalate (" ").data keywords)

/-- The fixed role-keyword table of `LocalRecommendationEngine.enhance_query`
(recommender_local.py lines 66-75), in Python dict insertion order. -/
def skill_keywords : List (String × String) :=
  [ ("developer", "programming coding software development")
  , ("data scientist", "data analysis statistics machine learning python")
  , ("manager", "leadership team management communication")
  , ("analyst", "analysis problem solving critical thinking")
  , ("engineer", "technical engineering problem solving")
  , ("designer", "design creativity user experience")
  , ("sales", "communication persuasion customer relationship")
  , ("marketing", "communication strategy creative content") ]

/-- The `for role, keywords in skill_keywords.items(): ... break` loop of
`enhance_query`: append the expansion of the first role whose keyword occurs
in the lowercased query, then stop. -/
def applyFirstRole (query_lower enhanced : String) : List (String × String) → String
  | [] => enhanced
  | rk :: rest =>
    if isSubStr rk.1 query_lower then enhanced ++ " " ++ rk.2
    else applyFirstRole query_lower enhanced rest

/-- `LocalRecommendationEngine.enhance_query` (recommender_local.py
lines 58-83). -/
def enhance_query (query : String) : String :=
  applyFirstRole (pyLower query) (extract_url_context query) skill_keywords

/-- Value of a `test_type` metadata entry: the Python code handles both a
list of tag strings and a plain string.  A missing key defaulting to `[]`
is modelled as `TType.list []`. -/
inductive TType where
  | list : List String → TType
  | str : String → TType
deriving DecidableEq

/-- A candidate record as consumed by the local balancing step.  Only
`test_type` is inspected by `balance_recommendations`; `name` stands for the
rest of the record and keeps distinct records distinguishable. -/
structure LRec where
  name : String
  test_type : TType
deriving DecidableEq

/-- `is_knowledge_test` (recommender_local.py lines 89-93): true iff some tag
of `test_type` contains the substring `K` or the substring `Knowledge`
(case-sensitively). -/
def is_knowledge_test (r : LRec) : Bool :=
  match r.test_type with
  | TType.list ts => ts.any (fun t => isSubStr ("K") t || isSubStr ("Knowledge") t)
  | TType.str s => isSubStr ("K") s || isSubStr ("Knowledge") s

/-- `k_tests = [r for r in results if is_knowledge_test(r)]`. -/
def kTests (results : List LRec) : List LRec :=
  results.filter (fun r => is_knowledge_test r)

/-- `other_tests = [r for r in results if not is_knowledge_test(r)]`. -/
def otherTests (results : List LRec) : List LRec :=
  results.filter (fun r => ¬ is_knowledge_test r)

/-- `LocalRecommendationEngine.balance_recommendations`
(recommender_local.py lines 85-110).  `remaining_slots` is an `Int` exactly
as `10 - len(balanced)` is a Python int that may be negative. -/
def balance_recommendations (results : List LRec) (min_k : Nat) : List LRec :=
  let k_tests := kTests results
  let other_tests := otherTests results
  let balanced := k_tests.take min_k ++ other_tests.take 3
  let remaining_slots : Int := 10 - balanced.length
  let balanced :=
    if 0 < remaining_slots then
      balanced ++ (k_tests.drop min_k ++ other_tests.drop 3).take remaining_slots.toNat
    else balanced
  balanced.take 10

/-- A catalog item as consumed by `prepare_document_text`
(embedding_pipeline_local.py).  Python `dict.get` of a missing key is
`none`; `test_type` may be a list or a plain string. -/
structure Item where
  name : Option String
  assessment_name : Option String
  test_type : Option TType
  description : Option String
deriving DecidableEq

/-- The `assessment.get('name') or assessment.get('assessment_name', '')`
fallback of `prepare_document_text` (Python `or` takes the second operand
when the first is `None` or the empty string). -/
def nameField (assessment : Item) : String :=
  match assessment.name with
  | some s => if s ≠ "" then s else assessment.assessment_name.getD ""
  | none => assessment.assessment_name.getD ""

/-- `LocalEmbeddingPipeline.prepare_document_text`
(embedding_pipeline_local.py lines 53-79). -/
def prepare_document_text (assessment : Item) : String :=
  let name := nameField assessment
  let parts : List String := if name ≠ "" then [name] else []
  let parts :=
    match assessment.test_type with
    | none => parts
    | some (TType.list ts) => if ts ≠ [] then parts ++ [joinSep (", ") ts] else parts
    | some (TType.str s) => if s ≠ "" then parts ++ [s] else parts
  let parts :=
    match assessment.description with
    | none => parts
    | some d => if d ≠ "" then parts ++ [d] else parts
  joinSep (" | ") parts

/-- Modelled from the spec (§4.1): the text of the `test_type` field — the
`', '`-join when it is a sequence, the raw value otherwise, empty when
absent. -/
def typeText (assessment : Item) : String :=
  match assessment.test_type with
  | none => ""
  | some (TType.list ts) => joinSep (", ") ts
  | some (TType.str s) => s

/-- Modelled from the spec (§4.1): "the present, non-empty fields among
name, test_type ..., and description", in that order. -/
def specFields (assessment : Item) : List String :=
  ([nameField assessment, typeText assessment, assessment.description.getD ""]).filter
    (fun s => s ≠ "")

/-- The `test_type` metadata parse of
`LocalRecommendationEngine.get_recommendations` (recommender_local.py
lines 143-146): split a comma-separated string and strip each piece, or wrap
a comma-free string as a one-element list. -/
def parse_test_type (s : String) : List String :=
  if s.data.contains ',' then (splitOnC ',' s.data).map (fun t => String.mk (stripL t))
  else [s]

/-- The metadata serialisation of `test_type` at index-build time
(embedding_pipeline_local.py line 112): `', '.join(...)` for a list value. -/
def join_test_type (tags : List String) : String :=
  joinSep (", ") tags

/-- A stored `duration` metadata value: ChromaDB metadata holds scalars, and
the reading code handles both strings and ints. -/
inductive DurVal where
  | str : String → DurVal
  | int : Int → DurVal
deriving DecidableEq

/-- A stored `adaptive_support` / `remote_support` metadata value: the
reading code handles both bools and strings. -/
inductive BoolStr where
  | bool : Bool → BoolStr
  | str : String → BoolStr
deriving DecidableEq

/-- A metadata record returned by the vector-index query, as read by
`get_recommendations` (recommender_local.py lines 141-163). -/
structure Metadata where
  assessment_name : Option String
  url : Option String
  description : Option String
  test_type : Option TType
  duration : Option DurVal
  adaptive_support : Option BoolStr
  remote_support : Option BoolStr
deriving DecidableEq

/-- A formatted recommendation (recommender_local.py lines 164-173).
`relevance_score` is the real-valued score, modelled over `ℚ`. -/
structure Recommendation where
  assessment_name : String
  url : String
  description : String
  duration : Option Int
  adaptive_support : String
  remote_support : String
  test_type : List String
  relevance_score : ℚ
deriving DecidableEq

/-- Python `int(s)` for a string of decimal digits. -/
def strToInt (s : String) : Int :=
  Int.ofNat (s.data.foldl (fun a c => a * 10 + (c.toNat - ('0').toNat)) 0)

/-- Round to the nearest integer, ties to even — the rounding used by Python
3's built-in `round`. -/
def roundHalfEven (x : ℚ) : ℤ :=
  let f := Int.floor x
  let r := x - (f : ℚ)
  if r < 1 / 2 then f
  else if 1 / 2 < r then f + 1
  else if f % 2 = 0 then f else f + 1

/-- Model of Python `round(x, 3)` over exact rationals: round half to even
at the third decimal place. -/
def pyRound3 (x : ℚ) : ℚ :=
  (roundHalfEven (x * 1000) : ℚ) / 1000

/-- The per-candidate formatting step of
`LocalRecommendationEngine.get_recommendations` (recommender_local.py
lines 141-174): parse `test_type`, `duration`, the support flags, and attach
`relevance_score = round(1 - distance, 3)`. -/
def formatOne (metadata : Metadata) (distance : ℚ) : Recommendation :=
  let test_type :=
    match metadata.test_type.getD (TType.str "") with
    | TType.str s => parse_test_type s
    | TType.list ts => ts
  let duration : Option Int :=
    match metadata.duration.getD (DurVal.str "") with
    | DurVal.str s => if s ≠ "" ∧ s.data.all Char.isDigit then some (strToInt s) else none
    | DurVal.int n => some n
  let adaptive_support :=
    match metadata.adaptive_support.getD (BoolStr.bool false) with
    | BoolStr.bool b => if b then "Yes" else "No"
    | BoolStr.str s => s
  let remote_support :=
    match metadata.remote_support.getD (BoolStr.bool false) with
    | BoolStr.bool b => if b then "Yes" else "No"
    | BoolStr.str s => s
  ⟨metadata.assessment_name.getD "", metadata.url.getD "", metadata.description.getD "",
    duration, adaptive_support, remote_support,
    if test_type ≠ [] then test_type else [],
    pyRound3 (1 - distance)⟩

/-- The `for metadata, distance in zip(metadatas, distances)` formatting loop
of `get_recommendations`, over the zipped candidate list. -/
def formatRecs (candidates : List (Metadata × ℚ)) : List Recommendation :=
  candidates.map (fun p => formatOne p.1 p.2)

/-- A FastAPI `HTTPException`, by status code and detail. -/
structure HttpError where
  status_code : Nat
  detail : String
deriving DecidableEq

/-- The `/recommend` handler `recommend_assessments` (main.py lines 149-217),
restricted to what it does before and instead of producing a response body:
the second component is the trace of texts sent to the embedding provider
while serving the request.  `get_recommender()` runs first (line 169) but
only constructs the engine and loads the stored collection — it embeds
nothing; the blank-query check (lines 171-175) mirrors
`if not request.query or len(request.query.strip()) == 0`.  On the non-blank
path `get_recommendations` embeds exactly the enhanced query
(recommender_local.py line 127 via `LocalEmbeddingPipeline.search`). -/
def recommend_assessments (query : String) : Except HttpError Unit × List String :=
  if query = "" || (pyStrip query).length = 0 then
    (Except.error ⟨400, "Query cannot be empty"⟩, [])
  else
    (Except.ok (), [enhance_query query])

/-- A candidate record on the API path (recommender_api.py lines 100-115):
the fields built by `get_recommendations` there.  `test_type` is `none` when
the key is missing (`rec.get('test_type', 'Unknown')` then yields
`'Unknown'`). -/
structure ARec where
  url : String
  assessment_name : String
  adaptive_support : String
  description : String
  duration : Option Int
  remote_support : String
  test_type : Option TType
deriving DecidableEq

/-- The `_test_type_key` normalisation of the API-path
`balance_recommendations` (recommender_api.py lines 49-53): a list joins
with `', '`, anything else goes through `str`, a missing key defaults to
`'Unknown'`. -/
def typeKey (tt : Option TType) : String :=
  match tt with
  | none => "Unknown"
  | some (TType.list ts) => joinSep (", ") ts
  | some (TType.str s) => s

/-- A record together with its optional `_test_type_key` entry; models the
mutable dict the API-path balancer writes into. -/
structure KRec where
  base : ARec
  tkey : Option String
deriving DecidableEq

/-- `type_groups[key].append(rec)` on an insertion-ordered dict of index
lists: append to an existing key's group or add a new key at the end. -/
def addToGroups (groups : List (String × List Nat)) (key : String) (i : Nat) :
    List (String × List Nat) :=
  if groups.any (fun g => g.1 = key) then
    groups.map (fun g => if g.1 = key then (g.1, g.2 ++ [i]) else g)
  else groups ++ [(key, [i])]

/-- The grouping loop `for rec in results: ... type_groups[key].append(rec)`
(recommender_api.py lines 48-56), with records identified by their index in
`results`. -/
def buildGroups : List String → Nat → List (String × List Nat) → List (String × List Nat)
  | [], _, acc => acc
  | k :: rest, i, acc => buildGroups rest (i + 1) (addToGroups acc k i)

/-- One `for test_type in type_order` pass of the round-robin selection
(recommender_api.py lines 64-68): pop the head of each non-empty group in
order, stopping as soon as `max_results` is reached. -/
def rrPass (max_results : Nat) :
    List (String × List Nat) → List Nat → List (String × List Nat) × List Nat
  | [], balanced => ([], balanced)
  | g :: rest, balanced =>
    match g.2 with
    | [] =>
      let r := rrPass max_results rest balanced
      ((g.1, []) :: r.1, r.2)
    | i :: is =>
      let b2 := balanced ++ [i]
      if max_results ≤ b2.length then ((g.1, is) :: rest, b2)
      else
        let r := rrPass max_results rest b2
        ((g.1, is) :: r.1, r.2)

/-- The `while len(balanced) < max_results and any(type_groups.values())`
loop (recommender_api.py lines 63-68).  The fuel only makes the recursion
structural; every pass taken under the loop condition pops at least one
record, so `results.length + 1` steps always suffice. -/
def rrLoop (max_results : Nat) : Nat → List (String × List Nat) → List Nat → List Nat
  | 0, _, balanced => balanced
  | fuel + 1, groups, balanced =>
    if balanced.length < max_results ∧ groups.any (fun g => ¬ g.2.isEmpty) then
      let r := rrPass max_results groups balanced
      rrLoop max_results fuel r.1 r.2
    else balanced

/-- Python `rec in balanced` during the minimum-padding loop: membership by
dict value equality (at that point every record carries its
`_test_type_key`). -/
def memVal (store : List KRec) (balanced : List Nat) (i : Nat) : Bool :=
  balanced.any (fun j => store[j]? = store[i]?)

/-- The `if len(balanced) < min_results` padding loop (recommender_api.py
lines 71-76): walk `results` in order, append records not yet selected,
stop once `min_results` is reached. -/
def padLoop (min_results : Nat) (store : List KRec) : List Nat → List Nat → List Nat
  | [], balanced => balanced
  | i :: rest, balanced =>
    if memVal store balanced i then padLoop min_results store rest balanced
    else
      let b2 := balanced ++ [i]
      if min_results ≤ b2.length then b2
      else padLoop min_results store rest b2

/-- `del r['_test_type_key']` on the record at one index of the store. -/
def setKeyNone : List KRec → Nat → List KRec
  | [], _ => []
  | k :: rest, 0 => ⟨k.base, none⟩ :: rest
  | k :: rest, n + 1 => k :: setKeyNone rest n

/-- The cleanup loop `for r in final: del r['_test_type_key']`
(recommender_api.py lines 79-82). -/
def delKeys (store : List KRec) (finalIdx : List Nat) : List KRec :=
  finalIdx.foldl setKeyNone store

/-- The store after the key-writing loop (recommender_api.py lines 48-56):
every record has received its `_test_type_key` entry. -/
def apiStore (results : List ARec) : List KRec :=
  results.map (fun r => (⟨r, some (typeKey r.test_type)⟩ : KRec))

/-- The indices of the records of the returned list `final = balanced[:max_results]`
(recommender_api.py lines 59-79): round-robin selection, then minimum
padding, then truncation. -/
def apiFinalIdx (results : List ARec) (min_results max_results : Nat) : List Nat :=
  let groups := buildGroups (results.map (fun r => typeKey r.test_type)) 0 []
  let balanced := rrLoop max_results (results.length + 1) groups []
  let balanced :=
    if balanced.length < min_results then
      padLoop min_results (apiStore results) (List.range results.length) balanced
    else balanced
  balanced.take max_results

/-- `APIRecommendationEngine.balance_recommendations`
(recommender_api.py lines 38-84), with records identified by their index in
`results`.  Returns the indices of the returned (truncated) list together
with the post-call state of every input record (data plus its
`_test_type_key` entry): keys are written into all records, then deleted
from exactly the returned ones. -/
def balance_recommendations_api (results : List ARec) (min_results max_results : Nat) :
    List Nat × List KRec :=
  if results.isEmpty then ([], [])
  else (apiFinalIdx results min_results max_results,
    delKeys (apiStore results) (apiFinalIdx results min_results max_results))

/-- A knowledge-tagged candidate (its single tag contains `K`). -/
def kRec (nm : String) : LRec := ⟨nm, TType.list ["Knowledge & Skills"]⟩

/-- A non-knowledge candidate (its tag contains neither `K` nor `Knowledge`). -/
def bRec (nm : String) : LRec := ⟨nm, TType.list ["Personality & Behaviour"]⟩

/-- Concrete scenario input: 3 knowledge candidates then 7 others, in
distance order. -/
def c1List : List LRec :=
  [kRec "K1", kRec "K2", kRec "K3", bRec "B1", bRec "B2", bRec "B3", bRec "B4", bRec "B5",
    bRec "B6", bRec "B7"]

/-- Concrete input with 8 knowledge candidates and 3 others. -/
def c3List : List LRec :=
  [kRec "K1", kRec "K2", kRec "K3", kRec "K4", kRec "K5", kRec "K6", kRec "K7", kRec "K8",
    bRec "B1", bRec "B2", bRec "B3"]

/-- Concrete input with one knowledge candidate and one other. -/
def c4List : List LRec := [kRec "K1", bRec "B1"]

/-- Number of occurrences of `pat` in `s` (count of starting positions where
`pat` is a prefix of the corresponding suffix). -/
def countOcc (pat s : List Char) : Nat :=
  ((List.range (s.length + 1)).filter (fun p => pat.isPrefixOf (s.drop p))).length

/-- The query of the spec's `enhance` test scenario. -/
def c5Query : String := "developer role, need https://example.com/job-python-dev"

/-- The text `enhance_query` produces for `c5Query`. -/
def c5Expected : String := "example.com job python dev programming coding software development"

/-- The canned expansion of the `developer` role. -/
def devExpansion : String := "programming coding software development"

/-- Catalog item whose `test_type` list holds a single empty tag. -/
def c6Item : Item := ⟨some "Foo", none, some (TType.list [""]), some "Bar"⟩

/-- Catalog item with only a name. -/
def c6ItemA : Item := ⟨some "Foo", none, none, none⟩

/-- Catalog item with a name and a description. -/
def c6ItemB : Item := ⟨some "Foo", none, none, some "Bar"⟩

/-- A metadata record with every key missing. -/
def c7Meta : Metadata := ⟨none, none, none, none, none, none, none⟩

/-- Concrete API-path candidate list with two distinct test types. -/
def c10List : List ARec :=
  [⟨"u1", "A1", "No", "d1", none, "Yes", some (TType.list ["Knowledge & Skills"])⟩,
    ⟨"u2", "A2", "No", "d2", none, "Yes", some (TType.list ["Personality & Behaviour"])⟩,
    ⟨"u3", "A3", "No", "d3", none, "Yes", some (TType.list ["Knowledge & Skills"])⟩]


theorem take_helper (X Y Z : List LRec) (k : Nat) (hX : X.length = k) (hY : Y.length = 3)
    (h10 : k + 3 ≤ 10) : ((X ++ Y ++ Z).take 10).take (k + 3) = X ++ Y := by
  rw [List.take_take]
  have hm : min (k + 3) 10 = k + 3 := by omega
  rw [hm, List.take_append_eq_append_take, List.take_append_eq_append_take]
  have h1 : X.take (k + 3) = X := List.take_of_length_le (by omega)
  have h2 : Y.take (k + 3 - X.length) = Y := List.take_of_length_le (by omega)
  have h3 : k + 3 - (X ++ Y).length = 0 := by simp [List.length_append]; omega
  simp [h1, h2, h3, hX, hY, List.length_append]

lemma mem_kTests {x : LRec} {C : List LRec} (h : x ∈ kTests C) : is_knowledge_test x = true :=
  (List.mem_filter.1 h).2

lemma mem_otherTests {x : LRec} {C : List LRec} (h : x ∈ otherTests C) :
    is_knowledge_test x = false := by
  have h2 := (List.mem_filter.1 h).2
  simpa using h2

lemma kTests_append (X Y : List LRec) : kTests (X ++ Y) = kTests X ++ kTests Y :=
  List.filter_append X Y

lemma otherTests_append (X Y : List LRec) : otherTests (X ++ Y) = otherTests X ++ otherTests Y :=
  List.filter_append X Y

lemma kTests_eq_self_of (X : List LRec) (h : ∀ x ∈ X, is_knowledge_test x = true) :
    kTests X = X :=
  List.filter_eq_self.2 (fun a ha => by simpa using h a ha)

lemma kTests_eq_nil_of (Y : List LRec) (h : ∀ y ∈ Y, is_knowledge_test y = false) :
    kTests Y = [] := by
  simp only [kTests, List.filter_eq_nil_iff]
  intro a ha
  simp [h a ha]

lemma otherTests_eq_self_of (Y : List LRec) (h : ∀ y ∈ Y, is_knowledge_test y = false) :
    otherTests Y = Y :=
  List.filter_eq_self.2 (fun a ha => by simp [h a ha, otherTests])

lemma otherTests_eq_nil_of (X : List LRec) (h : ∀ x ∈ X, is_knowledge_test x = true) :
    otherTests X = [] := by
  simp only [otherTests, List.filter_eq_nil_iff]
  intro a ha
  simp [h a ha]

lemma balance_decomp_front (C : List LRec) (k : Nat) :
    ∃ W, balance_recommendations C k = ((kTests C).take k ++ W).take 10 := by
  simp only [balance_recommendations]
  by_cases h : (0 : Int) <
      10 - (((kTests C).take k ++ (otherTests C).take 3).length : Int)
  · rw [if_pos h, List.append_assoc]
    exact ⟨_, rfl⟩
  · rw [if_neg h]
    exact ⟨_, rfl⟩

lemma balance_decomp_le (C : List LRec) (k : Nat) (h : (kTests C).length ≤ k) :
    ∃ Y0, balance_recommendations C k = (kTests C ++ Y0).take 10 ∧
      ∀ y ∈ Y0, is_knowledge_test y = false := by
  have ht : (kTests C).take k = kTests C := List.take_of_length_le h
  have hd : (kTests C).drop k = [] := List.drop_eq_nil_of_le h
  simp only [balance_recommendations, ht, hd, List.nil_append]
  by_cases hc : (0 : Int) < 10 - ((kTests C ++ (otherTests C).take 3).length : Int)
  · rw [if_pos hc, List.append_assoc]
    refine ⟨_, rfl, ?_⟩
    intro y hy
    rcases List.mem_append.1 hy with h1 | h1
    · exact mem_otherTests (List.take_subset _ _ h1)
    · exact mem_otherTests (List.drop_subset _ _ (List.take_subset _ _ h1))
  · rw [if_neg hc]
    exact ⟨_, rfl, fun y hy => mem_otherTests (List.take_subset _ _ hy)⟩

lemma balance_fixed (X Y : List LRec) (k : Nat)
    (hX : ∀ x ∈ X, is_knowledge_test x = true) (hY : ∀ y ∈ Y, is_knowledge_test y = false)
    (hK : X.length < k) (hO : Y.length < 3) (hlen : X.length + Y.length < 10) :
    balance_recommendations (X ++ Y) k = X ++ Y := by
  have hkT : kTests (X ++ Y) = X := by
    rw [kTests_append, kTests_eq_self_of X hX, kTests_eq_nil_of Y hY, List.append_nil]
  have hoT : otherTests (X ++ Y) = Y := by
    rw [otherTests_append, otherTests_eq_nil_of X hX, otherTests_eq_self_of Y hY,
      List.nil_append]
  have htX : X.take k = X := List.take_of_length_le (by omega)
  have htY : Y.take 3 = Y := List.take_of_length_le (by omega)
  have hdX : X.drop k = [] := List.drop_eq_nil_of_le (by omega)
  have hdY : Y.drop 3 = [] := List.drop_eq_nil_of_le (by omega)
  simp only [balance_recommendations, hkT, hoT, htX, htY, hdX, hdY, List.append_nil]
  have hc : (0 : Int) < 10 - ((X ++ Y).length : Int) := by
    simp [List.length_append]
    omega
  rw [if_pos hc]
  simp only [List.take_nil, List.append_nil]
  exact List.take_of_length_le (by simp [List.length_append]; omega)

lemma balance_take_decomp (C : List LRec) (k m : Nat)
    (hK : (kTests ((balance_recommendations C k).take m)).length < k) :
    ∃ X Y, (balance_recommendations C k).take m = X ++ Y ∧
      (∀ x ∈ X, is_knowledge_test x = true) ∧ (∀ y ∈ Y, is_knowledge_test y = false) := by
  by_cases hA : (kTests C).length ≤ k
  · obtain ⟨Y0, hb, hY0⟩ := balance_decomp_le C k hA
    rw [hb, List.take_take, List.take_append_eq_append_take]
    refine ⟨_, _, rfl, ?_, ?_⟩
    · intro x hx
      exact mem_kTests (List.take_subset _ _ hx)
    · intro y hy
      exact hY0 _ (List.take_subset _ _ hy)
  · push_neg at hA
    obtain ⟨W, hb⟩ := balance_decomp_front C k
    have hklen : ((kTests C).take k).length = k := by
      simp [List.length_take]
      omega
    have hL : (balance_recommendations C k).take m =
        ((kTests C).take k).take (min m 10) ++ W.take (min m 10 - k) := by
      rw [hb, List.take_take, List.take_append_eq_append_take, hklen]
    by_cases hjk : min m 10 ≤ k
    · refine ⟨((kTests C).take k).take (min m 10), [], ?_, ?_, by simp⟩
      · rw [hL, Nat.sub_eq_zero_of_le hjk]
        simp
      · intro x hx
        exact mem_kTests (List.take_subset _ _ (List.take_subset _ _ hx))
    · exfalso
      push_neg at hjk
      have h1 : ((kTests C).take k).take (min m 10) = (kTests C).take k :=
        List.take_of_length_le (by omega)
      rw [hL, h1] at hK
      have h2 : kTests ((kTests C).take k ++ W.take (min m 10 - k)) =
          (kTests C).take k ++ kTests (W.take (min m 10 - k)) := by
        rw [kTests_append,
          kTests_eq_self_of _ (fun x hx => mem_kTests (List.take_subset _ _ hx))]
      rw [h2] at hK
      simp [List.length_append, hklen] at hK

lemma applyFirstRole_cases (ql e : String) (ks : List (String × String)) :
    applyFirstRole ql e ks = e ∨
      ∃ rk, rk ∈ ks ∧ applyFirstRole ql e ks = e ++ " " ++ rk.2 := by
  induction ks with
  | nil => exact Or.inl rfl
  | cons rk rest ih =>
    by_cases h : isSubStr rk.1 ql
    · right
      exact ⟨rk, List.mem_cons_self rk rest, by simp [applyFirstRole, h]⟩
    · rcases ih with h1 | ⟨rk2, hm, h2⟩
      · left
        simp [applyFirstRole, h, h1]
      · right
        exact ⟨rk2, List.mem_cons_of_mem _ hm, by simp [applyFirstRole, h, h2]⟩

lemma filter_triple (a b c : String) :
    (([a, b, c]).filter (fun s => s ≠ "")) =
      ((if a ≠ "" then [a] else []) ++ (if b ≠ "" then [b] else []) ++
        (if c ≠ "" then [c] else [])) := by
  by_cases ha : a = "" <;> by_cases hb : b = "" <;> by_cases hc : c = "" <;>
    simp [ha, hb, hc]

lemma splitOnC_no_sep (sep : Char) (a : List Char) (h : sep ∉ a) : splitOnC sep a = [a] := by
  induction a with
  | nil => rfl
  | cons c rest ih =>
    have hc : ¬ c = sep := fun hcs => h (hcs ▸ List.mem_cons_self c rest)
    have hrest : sep ∉ rest := fun hm => h (List.mem_cons_of_mem c hm)
    simp [splitOnC, hc, ih hrest]

lemma splitOnC_append_sep (sep : Char) (a b : List Char) (h : sep ∉ a) :
    splitOnC sep (a ++ sep :: b) = a :: splitOnC sep b := by
  induction a with
  | nil => simp [splitOnC]
  | cons c rest ih =>
    have hc : ¬ c = sep := fun hcs => h (hcs ▸ List.mem_cons_self c rest)
    have hrest : sep ∉ rest := fun hm => h (List.mem_cons_of_mem c hm)
    simp [splitOnC, hc, ih hrest]

lemma comma_space_data : (", ").data = [','] ++ [' '] := rfl

lemma split_join_cons (t : String) (rest : List String)
    (h : ∀ x ∈ t :: rest, ',' ∉ x.data) :
    splitOnC ',' (joinSep (", ") (t :: rest)).data =
      t.data :: rest.map (fun r => ' ' :: r.data) := by
  induction rest generalizing t with
  | nil =>
    simp only [joinSep, List.map_nil]
    exact splitOnC_no_sep ',' t.data (h t (List.mem_cons_self t []))
  | cons t2 rest2 ih =>
    have hdata : (joinSep (", ") (t :: t2 :: rest2)).data =
        t.data ++ ',' :: ' ' :: (joinSep (", ") (t2 :: rest2)).data := by
      show (t ++ ", " ++ joinSep (", ") (t2 :: rest2)).data = _
      rw [String.data_append, String.data_append, comma_space_data]
      simp
    rw [hdata, splitOnC_append_sep ',' t.data _ (h t (List.mem_cons_self t _))]
    have ih2 := ih t2 (fun x hx => h x (List.mem_cons_of_mem t hx))
    have hspace : splitOnC ',' (' ' :: (joinSep (", ") (t2 :: rest2)).data) =
        (' ' :: t2.data) :: rest2.map (fun r => ' ' :: r.data) := by
      simp [splitOnC, ih2]
    rw [hspace]
    simp

lemma dropWhile_eq_self_of_strip {t : String} (h : pyStrip t = t) :
    t.data.dropWhile pyWs = t.data ∧ t.data.reverse.dropWhile pyWs = t.data.reverse := by
  have hs : stripL t.data = t.data := congrArg String.data h
  have h1 : (t.data.dropWhile pyWs).length ≤ t.data.length :=
    (List.dropWhile_suffix pyWs).length_le
  have h2 : ((t.data.dropWhile pyWs).reverse.dropWhile pyWs).length ≤
      (t.data.dropWhile pyWs).length := by
    have := (List.dropWhile_suffix (l := (t.data.dropWhile pyWs).reverse) pyWs).length_le
    simpa using this
  have hlen : (stripL t.data).length =
      ((t.data.dropWhile pyWs).reverse.dropWhile pyWs).length := by
    simp [stripL]
  have heq1 : (t.data.dropWhile pyWs).length = t.data.length := by
    rw [hs] at hlen
    omega
  have hdw : t.data.dropWhile pyWs = t.data :=
    (List.dropWhile_suffix pyWs).eq_of_length heq1
  refine ⟨hdw, ?_⟩
  have hs2 : (t.data.reverse.dropWhile pyWs).reverse = t.data := by
    have := hs
    simp only [stripL, hdw] at this
    exact this
  have := congrArg List.reverse hs2
  simpa using this

lemma strip_cons_space {t : String} (h : pyStrip t = t) :
    String.mk (stripL (' ' :: t.data)) = t := by
  obtain ⟨h1, h2⟩ := dropWhile_eq_self_of_strip h
  have hws : pyWs ' ' = true := rfl
  have hd : (' ' :: t.data).dropWhile pyWs = t.data := by
    rw [List.dropWhile_cons_of_pos hws, h1]
  have : stripL (' ' :: t.data) = t.data := by
    simp [stripL, hd, h2]
  rw [this]

lemma map_strip_space (l : List String) (h : ∀ x ∈ l, pyStrip x = x) :
    l.map (fun r => String.mk (stripL (' ' :: r.data))) = l := by
  induction l with
  | nil => rfl
  | cons x rest ih =>
    simp only [List.map_cons]
    rw [strip_cons_space (h x (List.mem_cons_self x rest)),
      ih (fun y hy => h y (List.mem_cons_of_mem x hy))]

lemma setKeyNone_getElem (store : List KRec) (j i : Nat) :
    (setKeyNone store j)[i]? =
      if i = j then (store[i]?).map (fun kr => ⟨kr.base, none⟩) else store[i]? := by
  induction store generalizing j i with
  | nil => simp [setKeyNone]
  | cons k rest ih =>
    cases j with
    | zero =>
      cases i with
      | zero => simp [setKeyNone]
      | succ n => simp [setKeyNone]
    | succ jm =>
      cases i with
      | zero => simp [setKeyNone]
      | succ n => simpa [setKeyNone] using ih jm n

lemma delKeys_getElem (idxs : List Nat) (store : List KRec) (i : Nat) :
    (delKeys store idxs)[i]? =
      if i ∈ idxs then (store[i]?).map (fun kr => ⟨kr.base, none⟩) else store[i]? := by
  induction idxs generalizing store with
  | nil => simp [delKeys]
  | cons j rest ih =>
    have hstep : delKeys store (j :: rest) = delKeys (setKeyNone store j) rest := rfl
    rw [hstep, ih]
    by_cases hm : i ∈ rest
    · rw [if_pos hm, if_pos (List.mem_cons_of_mem j hm), setKeyNone_getElem]
      by_cases hij : i = j
      · rw [if_pos hij]
        cases store[i]? <;> simp
      · rw [if_neg hij]
    · rw [if_neg hm, setKeyNone_getElem]
      by_cases hij : i = j
      · rw [if_pos hij, if_pos (by simp [hij])]
      · rw [if_neg hij, if_neg (by simp [hij, hm])]

lemma addToGroups_bound (acc : List (String × List Nat)) (key : String) (i n : Nat)
    (hacc : ∀ g ∈ acc, ∀ j ∈ g.2, j < n) (hi : i < n) :
    ∀ g ∈ addToGroups acc key i, ∀ j ∈ g.2, j < n := by
  intro g hg j hj
  simp only [addToGroups] at hg
  by_cases hk : acc.any (fun g => g.1 = key)
  · rw [if_pos hk] at hg
    obtain ⟨g0, hg0, hmap⟩ := List.mem_map.1 hg
    by_cases h0 : g0.1 = key
    · rw [if_pos h0] at hmap
      rw [← hmap] at hj
      rcases List.mem_append.1 hj with h1 | h1
      · exact hacc g0 hg0 j h1
      · simp at h1
        omega
    · rw [if_neg h0] at hmap
      rw [← hmap] at hj
      exact hacc g0 hg0 j hj
  · rw [if_neg hk] at hg
    rcases List.mem_append.1 hg with h1 | h1
    · exact hacc g h1 j hj
    · simp at h1
      rw [h1] at hj
      simp at hj
      omega

lemma buildGroups_bound (keys : List String) (i0 n : Nat) (acc : List (String × List Nat))
    (hacc : ∀ g ∈ acc, ∀ j ∈ g.2, j < n) (hkeys : i0 + keys.length ≤ n) :
    ∀ g ∈ buildGroups keys i0 acc, ∀ j ∈ g.2, j < n := by
  induction keys generalizing i0 acc with
  | nil => simpa [buildGroups] using hacc
  | cons k rest ih =>
    simp only [buildGroups]
    exact ih (i0 + 1) (addToGroups acc k i0)
      (addToGroups_bound acc k i0 n hacc (by simp at hkeys; omega))
      (by simp at hkeys ⊢; omega)

lemma rrPass_balanced_sub (mx : Nat) (gs : List (String × List Nat)) (balanced : List Nat) :
    ∀ j ∈ (rrPass mx gs balanced).2, j ∈ balanced ∨ ∃ g ∈ gs, j ∈ g.2 := by
  induction gs generalizing balanced with
  | nil =>
    intro j hj
    simp [rrPass] at hj
    exact Or.inl hj
  | cons g rest ih =>
    obtain ⟨key, idxs⟩ := g
    cases idxs with
    | nil =>
      intro j hj
      simp only [rrPass] at hj
      rcases ih balanced j hj with h1 | ⟨g2, hg2, hjg⟩
      · exact Or.inl h1
      · exact Or.inr ⟨g2, List.mem_cons_of_mem _ hg2, hjg⟩
    | cons i is =>
      intro j hj
      simp only [rrPass] at hj
      by_cases hb : mx ≤ (balanced ++ [i]).length
      · rw [if_pos hb] at hj
        simp at hj
        rcases hj with h1 | h1
        · exact Or.inl h1
        · exact Or.inr ⟨(key, i :: is), List.mem_cons_self _ _, by simp [h1]⟩
      · rw [if_neg hb] at hj
        rcases ih (balanced ++ [i]) j hj with h1 | ⟨g2, hg2, hjg⟩
        · simp at h1
          rcases h1 with h2 | h2
          · exact Or.inl h2
          · exact Or.inr ⟨(key, i :: is), List.mem_cons_self _ _, by simp [h2]⟩
        · exact Or.inr ⟨g2, List.mem_cons_of_mem _ hg2, hjg⟩

lemma rrPass_groups_sub (mx : Nat) (gs : List (String × List Nat)) (balanced : List Nat) :
    ∀ g2 ∈ (rrPass mx gs balanced).1, ∀ j ∈ g2.2, ∃ g ∈ gs, j ∈ g.2 := by
  induction gs generalizing balanced with
  | nil =>
    intro g2 hg2
    simp [rrPass] at hg2
  | cons g rest ih =>
    obtain ⟨key, idxs⟩ := g
    cases idxs with
    | nil =>
      intro g2 hg2 j hj
      simp only [rrPass] at hg2
      rcases List.mem_cons.1 hg2 with h1 | h1
      · rw [h1] at hj
        simp at hj
      · obtain ⟨g3, hg3, hjg⟩ := ih balanced g2 h1 j hj
        exact ⟨g3, List.mem_cons_of_mem _ hg3, hjg⟩
    | cons i is =>
      intro g2 hg2 j hj
      simp only [rrPass] at hg2
      by_cases hb : mx ≤ (balanced ++ [i]).length
      · rw [if_pos hb] at hg2
        rcases List.mem_cons.1 hg2 with h1 | h1
        · rw [h1] at hj
          exact ⟨(key, i :: is), List.mem_cons_self _ _, by simp at hj ⊢; simp [hj]⟩
        · exact ⟨g2, List.mem_cons_of_mem _ h1, hj⟩
      · rw [if_neg hb] at hg2
        rcases List.mem_cons.1 hg2 with h1 | h1
        · rw [h1] at hj
          exact ⟨(key, i :: is), List.mem_cons_self _ _, by simp at hj ⊢; simp [hj]⟩
        · obtain ⟨g3, hg3, hjg⟩ := ih (balanced ++ [i]) g2 h1 j hj
          exact ⟨g3, List.mem_cons_of_mem _ hg3, hjg⟩

lemma rrLoop_sub (mx fuel : Nat) (gs : List (String × List Nat)) (balanced : List Nat) :
    ∀ j ∈ rrLoop mx fuel gs balanced, j ∈ balanced ∨ ∃ g ∈ gs, j ∈ g.2 := by
  induction fuel generalizing gs balanced with
  | zero =>
    intro j hj
    simp [rrLoop] at hj
    exact Or.inl hj
  | succ n ih =>
    intro j hj
    simp only [rrLoop] at hj
    by_cases hc : balanced.length < mx ∧ gs.any (fun g => ¬ g.2.isEmpty)
    · rw [if_pos hc] at hj
      rcases ih (rrPass mx gs balanced).1 (rrPass mx gs balanced).2 j hj with h1 | ⟨g2, hg2, hjg⟩
      · exact rrPass_balanced_sub mx gs balanced j h1
      · exact Or.inr (rrPass_groups_sub mx gs balanced g2 hg2 j hjg)
    · rw [if_neg hc] at hj
      exact Or.inl hj

lemma padLoop_sub (mn : Nat) (store : List KRec) (idxs balanced : List Nat) :
    ∀ j ∈ padLoop mn store idxs balanced, j ∈ balanced ∨ j ∈ idxs := by
  induction idxs generalizing balanced with
  | nil =>
    intro j hj
    simp [padLoop] at hj
    exact Or.inl hj
  | cons i rest ih =>
    intro j hj
    simp only [padLoop] at hj
    by_cases hm : memVal store balanced i
    · rw [if_pos hm] at hj
      rcases ih balanced j hj with h1 | h1
      · exact Or.inl h1
      · exact Or.inr (List.mem_cons_of_mem _ h1)
    · rw [if_neg hm] at hj
      by_cases hl : mn ≤ (balanced ++ [i]).length
      · rw [if_pos hl] at hj
        simp at hj
        rcases hj with h1 | h1
        · exact Or.inl h1
        · exact Or.inr (by simp [h1])
      · rw [if_neg hl] at hj
        rcases ih (balanced ++ [i]) j hj with h1 | h1
        · simp at h1
          rcases h1 with h2 | h2
          · exact Or.inl h2
          · exact Or.inr (by simp [h2])
        · exact Or.inr (List.mem_cons_of_mem _ h1)

lemma apiFinalIdx_bound (results : List ARec) (mn mx : Nat) :
    ∀ j ∈ apiFinalIdx results mn mx, j < results.length := by
  intro j hj
  simp only [apiFinalIdx] at hj
  have hj2 := List.take_subset _ _ hj
  have hloop : ∀ i ∈ rrLoop mx (results.length + 1)
      (buildGroups (results.map (fun r => typeKey r.test_type)) 0 []) [],
      i < results.length := by
    intro i hi
    rcases rrLoop_sub _ _ _ _ i hi with h1 | ⟨g, hg, hig⟩
    · simp at h1
    · exact buildGroups_bound _ 0 results.length [] (by simp) (by simp) g hg i hig
  by_cases hpad : (rrLoop mx (results.length + 1)
      (buildGroups (results.map (fun r => typeKey r.test_type)) 0 []) []).length < mn
  · rw [if_pos hpad] at hj2
    rcases padLoop_sub _ _ _ _ j hj2 with h1 | h1
    · exact hloop j h1
    · exact List.mem_range.1 h1
  · rw [if_neg hpad] at hj2
    exact hloop j hj2

/-- Claim C1: for the local-path balancing algorithm with `min_k = 2` and
`max_results = 10`, a candidate list whose knowledge-tagged sublist is
`K1, K2, K3` (in original distance order) and whose non-knowledge sublist is
`B1, ..., B7` (in original order) is balanced to exactly
`K1, K2, B1, B2, B3, K3, B4, B5, B6, B7`. -/
theorem c1_local_balance_end_to_end (results : List LRec)
    (k1 k2 k3 b1 b2 b3 b4 b5 b6 b7 : LRec)
    (hK : kTests results = [k1, k2, k3])
    (hO : otherTests results = [b1, b2, b3, b4, b5, b6, b7]) :
    balance_recommendations results 2 = [k1, k2, b1, b2, b3, k3, b4, b5, b6, b7] := by
  simp [balance_recommendations, hK, hO]

/-- Witness for C1: the concrete ten-candidate scenario of the spec. -/
theorem c1_local_balance_end_to_end_witness :
    (kTests c1List = [kRec "K1", kRec "K2", kRec "K3"] ∧
      otherTests c1List = [bRec "B1", bRec "B2", bRec "B3", bRec "B4", bRec "B5", bRec "B6",
        bRec "B7"]) ∧
    balance_recommendations c1List 2 =
      [kRec "K1", kRec "K2", bRec "B1", bRec "B2", bRec "B3", kRec "K3", bRec "B4", bRec "B5",
        bRec "B6", bRec "B7"] :=
  ⟨⟨by decide, by decide⟩,
    c1_local_balance_end_to_end c1List _ _ _ _ _ _ _ _ _ _ (by decide) (by decide)⟩

/-- Claim C2: for every candidate list and every `min_k` and `max_results`,
the balancing step (a total function — it never fails) followed by the
caller's truncation `balanced_recs[:max_results]`
(recommender_local.py line 180) yields at most `min(10, max_results)`
items. -/
theorem c2_balance_length_bound (results : List LRec) (min_k max_results : Nat) :
    ((balance_recommendations results min_k).take max_results).length ≤
      min 10 max_results := by
  have h10 : (balance_recommendations results min_k).length ≤ 10 := by
    simp [balance_recommendations, List.length_take]
  simp [List.length_take] at h10 ⊢
  omega

/-- Counterexample for C3 as stated: with `min_k = 8`, a list whose knowledge
group has 8 members and whose other group has 3 satisfies the claim's quota
hypotheses, yet the output (truncated to 10) does not begin with the 8
knowledge items immediately followed by the other group's first 3 — the
third non-knowledge item is cut off. -/
theorem c3_first_slots_counterexample :
    (8 ≤ (kTests c3List).length ∧ 3 ≤ (otherTests c3List).length) ∧
    ¬ ((balance_recommendations c3List 8).take (8 + 3) =
        (kTests c3List).take 8 ++ (otherTests c3List).take 3) := by
  decide

/-- Claim C3 (amended): the stated prefix property holds whenever
additionally `min_k + 3 ≤ 10` (in particular for the default `min_k = 2`):
when Group A has at least `min_k` members and Group B at least 3, the output
starts with Group A's first `min_k` in original order immediately followed
by Group B's first 3 in original order. -/
theorem c3_first_slots_amended (results : List LRec) (min_k : Nat) (h10 : min_k + 3 ≤ 10)
    (hK : min_k ≤ (kTests results).length) (hO : 3 ≤ (otherTests results).length) :
    (balance_recommendations results min_k).take (min_k + 3) =
      (kTests results).take min_k ++ (otherTests results).take 3 := by
  have hX : ((kTests results).take min_k).length = min_k := by
    simp [List.length_take]
    omega
  have hY : ((otherTests results).take 3).length = 3 := by
    simp [List.length_take]
    omega
  simp only [balance_recommendations]
  by_cases hc : (0 : Int) <
      10 - (((kTests results).take min_k ++ (otherTests results).take 3).length : Int)
  · rw [if_pos hc]
    exact take_helper _ _ _ _ hX hY h10
  · rw [if_neg hc]
    have h := take_helper ((kTests results).take min_k) ((otherTests results).take 3) []
      min_k hX hY h10
    simpa using h

/-- Witness for the amended C3 at the default `min_k = 2`. -/
theorem c3_first_slots_amended_witness :
    (2 + 3 ≤ 10 ∧ 2 ≤ (kTests c1List).length ∧ 3 ≤ (otherTests c1List).length) ∧
    (balance_recommendations c1List 2).take (2 + 3) =
      (kTests c1List).take 2 ++ (otherTests c1List).take 3 :=
  ⟨⟨by decide, by decide, by decide⟩,
    c3_first_slots_amended c1List 2 (by decide) (by decide) (by decide)⟩

/-- Claim C4: re-balancing an already-balanced, already-truncated list
returns it unchanged whenever it is shorter than all quotas — fewer than
`min_k` knowledge items, fewer than 3 non-knowledge items, fewer than 10
items in total. -/
theorem c4_balance_idempotent (C : List LRec) (k m : Nat) (L : List LRec)
    (hL : L = (balance_recommendations C k).take m)
    (hK : (kTests L).length < k) (hO : (otherTests L).length < 3) (hlen : L.length < 10) :
    balance_recommendations L k = L := by
  subst hL
  obtain ⟨X, Y, hXY, hX, hY⟩ := balance_take_decomp C k m hK
  rw [hXY] at hK hO hlen ⊢
  have hkT : kTests (X ++ Y) = X := by
    rw [kTests_append, kTests_eq_self_of X hX, kTests_eq_nil_of Y hY, List.append_nil]
  have hoT : otherTests (X ++ Y) = Y := by
    rw [otherTests_append, otherTests_eq_nil_of X hX, otherTests_eq_self_of Y hY,
      List.nil_append]
  rw [hkT] at hK
  rw [hoT] at hO
  rw [List.length_append] at hlen
  exact balance_fixed X Y k hX hY hK hO hlen

/-- Witness for C4: a two-element balanced output re-balances to itself. -/
theorem c4_balance_idempotent_witness :
    ((kTests ((balance_recommendations c4List 2).take 2)).length < 2 ∧
      (otherTests ((balance_recommendations c4List 2).take 2)).length < 3 ∧
      ((balance_recommendations c4List 2).take 2).length < 10) ∧
    balance_recommendations ((balance_recommendations c4List 2).take 2) 2 =
      (balance_recommendations c4List 2).take 2 :=
  ⟨⟨by decide, by decide, by decide⟩,
    c4_balance_idempotent c4List 2 2 _ rfl (by decide) (by decide) (by decide)⟩

/-- Claim C5: `enhance_query` appends at most one role expansion — for every
query the result is the working text unchanged or the working text plus
exactly one table entry's expansion; on the spec's URL scenario it produces
exactly the URL tokens (`example.com`, `job`, `python`, `dev`) followed by
the `developer` expansion, which occurs exactly once; and with several role
keywords present the `developer` expansion still wins (fixed scan order,
first match only). -/
theorem c5_enhance_first_match_only :
    (∀ q : String, enhance_query q = extract_url_context q ∨
      ∃ rk, rk ∈ skill_keywords ∧ enhance_query q = extract_url_context q ++ " " ++ rk.2) ∧
    enhance_query c5Query = c5Expected ∧
    ((pySplitWs c5Expected.data).contains ("job").data ∧
      (pySplitWs c5Expected.data).contains ("python").data ∧
      (pySplitWs c5Expected.data).contains ("dev").data) ∧
    countOcc devExpansion.data (enhance_query c5Query).data = 1 ∧
    enhance_query ("developer and manager and engineer") =
      "developer and manager and engineer" ++ " " ++ devExpansion :=
  ⟨fun q => applyFirstRole_cases (pyLower q) (extract_url_context q) skill_keywords,
    by decide, ⟨by decide, by decide, by decide⟩, by decide, by decide⟩

/-- Counterexample for C6 as stated: an item whose `test_type` is the
non-empty list `[""]` makes `prepare_document_text` emit an empty segment,
so the output contains the separator adjacent to itself and is not the join
of the present non-empty fields. -/
theorem c6_prepare_counterexample :
    prepare_document_text c6Item = "Foo |  | Bar" ∧
    isSubStr (" | " ++ " | ") (prepare_document_text c6Item) = true ∧
    ¬ (prepare_document_text c6Item = joinSep (" | ") (specFields c6Item)) := by
  decide

/-- Claim C6 (amended): provided a present non-empty `test_type` list joins
to a non-empty string, `prepare_document_text` returns exactly the `' | '`
join of the present, non-empty fields among name, test_type and
description, and every joined segment is non-empty — so the join introduces
no empty segment, no doubled separator, and no leading or trailing
separator. -/
theorem c6_prepare_amended (assessment : Item)
    (h : ∀ ts, assessment.test_type = some (TType.list ts) → ts ≠ [] →
      joinSep (", ") ts ≠ "") :
    prepare_document_text assessment = joinSep (" | ") (specFields assessment) ∧
    ∀ p ∈ specFields assessment, p ≠ "" := by
  constructor
  · simp only [prepare_document_text, specFields, typeText, filter_triple]
    rcases htt : assessment.test_type with _ | tl
    · rcases hds : assessment.description with _ | d
      · by_cases hN : nameField assessment = "" <;> simp [htt, hds, hN]
      · by_cases hN : nameField assessment = "" <;> by_cases hd : d = "" <;>
          simp [htt, hds, hN, hd]
    · rcases tl with ts | s
      · have hts := h ts htt
        rcases hds : assessment.description with _ | d
        · by_cases hts0 : ts = []
          · by_cases hN : nameField assessment = "" <;> simp [htt, hds, hN, hts0, joinSep]
          · have hj := hts hts0
            by_cases hN : nameField assessment = "" <;> simp [htt, hds, hN, hts0, hj, joinSep]
        · by_cases hts0 : ts = []
          · by_cases hN : nameField assessment = "" <;> by_cases hd : d = "" <;>
              simp [htt, hds, hN, hts0, hd, joinSep]
          · have hj := hts hts0
            by_cases hN : nameField assessment = "" <;> by_cases hd : d = "" <;>
              simp [htt, hds, hN, hts0, hd, hj, joinSep]
      · rcases hds : assessment.description with _ | d
        · by_cases hN : nameField assessment = "" <;> by_cases hs : s = "" <;>
            simp [htt, hds, hN, hs]
        · by_cases hN : nameField assessment = "" <;> by_cases hs : s = "" <;>
            by_cases hd : d = "" <;> simp [htt, hds, hN, hs, hd]
  · intro p hp
    have h2 := (List.mem_filter.1 hp).2
    simpa using h2

/-- Witness for the amended C6, including the spec's two examples: an item
with only `name = "Foo"` yields `"Foo"`, and adding `description = "Bar"`
yields `"Foo | Bar"`. -/
theorem c6_prepare_amended_witness :
    (∀ ts, c6ItemB.test_type = some (TType.list ts) → ts ≠ [] → joinSep (", ") ts ≠ "") ∧
    (prepare_document_text c6ItemB = joinSep (" | ") (specFields c6ItemB) ∧
      ∀ p ∈ specFields c6ItemB, p ≠ "") ∧
    (prepare_document_text c6ItemA = "Foo" ∧ prepare_document_text c6ItemB = "Foo | Bar") :=
  ⟨fun ts hts => by simp [c6ItemB] at hts,
    c6_prepare_amended c6ItemB (fun ts hts => by simp [c6ItemB] at hts),
    ⟨by decide, by decide⟩⟩

/-- Counterexample for C7 as stated: at distance `1/10000` the produced
`relevance_score` is `round(1 - distance, 3) = 1`, not `1 - distance`. -/
theorem c7_relevance_counterexample :
    (formatRecs [(c7Meta, 1 / 10000)]).map (fun r => r.relevance_score) = [(1 : ℚ)] ∧
    (1 : ℚ) ≠ 1 - 1 / 10000 := by
  constructor
  · simp only [formatRecs, formatOne, List.map_cons, List.map_nil]
    have h1 : ((1 : ℚ) - 1 / 10000) * 1000 = 9999 / 10 := by norm_num
    have hf : Int.floor ((9999 : ℚ) / 10) = 999 := by
      rw [Int.floor_eq_iff]
      constructor <;> norm_num
    simp only [pyRound3, roundHalfEven, h1, hf]
    norm_num
  · norm_num

/-- Claim C7 (amended): every recommendation produced by the local engine's
formatting step carries `relevance_score = round(1 - distance, 3)` — the
score is `1 - distance` rounded to three decimal places, not `1 - distance`
itself. -/
theorem c7_relevance_amended (candidates : List (Metadata × ℚ)) :
    (formatRecs candidates).map (fun r => r.relevance_score) =
      candidates.map (fun p => pyRound3 (1 - p.2)) := by
  simp only [formatRecs, List.map_map]
  rfl

/-- Claim C8: a query that is empty or all whitespace is rejected by the
`/recommend` handler with HTTP 400 `Query cannot be empty`, and no text is
sent to the embedding provider while serving that request. -/
theorem c8_blank_query_rejected (query : String) (h : ∀ c ∈ query.data, pyWs c = true) :
    recommend_assessments query = (Except.error ⟨400, "Query cannot be empty"⟩, []) := by
  have h1 : query.data.dropWhile pyWs = [] := by
    rw [List.dropWhile_eq_nil_iff]
    exact fun x hx => h x hx
  have hs : stripL query.data = [] := by
    simp [stripL, h1]
  have hlen : (pyStrip query).length = 0 := by
    simp [pyStrip, hs, String.length]
  simp [recommend_assessments, hlen]

/-- Witness for C8 at the two-space query. -/
theorem c8_blank_query_rejected_witness :
    (∀ c ∈ ("  ").data, pyWs c = true) ∧
    recommend_assessments ("  ") = (Except.error ⟨400, "Query cannot be empty"⟩, []) :=
  ⟨by decide, c8_blank_query_rejected ("  ") (by decide)⟩

/-- Claim C9: for every non-empty tag list in which no tag contains a comma
and no tag carries leading or trailing whitespace, joining with `', '` at
index-build time and re-splitting on `','` with stripping at read time
recovers the original list in order. -/
theorem c9_test_type_round_trip (tags : List String) (hne : tags ≠ [])
    (h : ∀ t ∈ tags, ',' ∉ t.data ∧ pyStrip t = t) :
    parse_test_type (join_test_type tags) = tags := by
  match tags with
  | [t] =>
    have hc : (join_test_type [t]).data.contains ',' = false := by
      have ht : join_test_type [t] = t := rfl
      rw [ht]
      simpa using (h t (List.mem_cons_self t [])).1
    simp only [parse_test_type, hc, Bool.false_eq_true, if_false]
    rfl
  | t :: t2 :: rest =>
    have hsplit := split_join_cons t (t2 :: rest) (fun x hx => (h x hx).1)
    have hc : (joinSep (", ") (t :: t2 :: rest)).data.contains ',' = true := by
      have hdata : (joinSep (", ") (t :: t2 :: rest)).data =
          t.data ++ ',' :: ' ' :: (joinSep (", ") (t2 :: rest)).data := by
        show (t ++ ", " ++ joinSep (", ") (t2 :: rest)).data = _
        rw [String.data_append, String.data_append, comma_space_data]
        simp
      rw [hdata]
      simp
    simp only [parse_test_type, join_test_type, hc, if_true]
    rw [hsplit]
    have hs : stripL t.data = t.data :=
      congrArg String.data ((h t (List.mem_cons_self t _)).2)
    have hm := map_strip_space (t2 :: rest)
      (fun x hx => (h x (List.mem_cons_of_mem t hx)).2)
    simp only [List.map_cons] at hm
    simp only [List.map_cons, List.map_map, Function.comp_def]
    rw [hm, hs]

/-- Witness for C9 on two comma-free, stripped tags. -/
theorem c9_test_type_round_trip_witness :
    ((["Knowledge & Skills", "Ability & Aptitude"] : List String) ≠ [] ∧
      ∀ t ∈ (["Knowledge & Skills", "Ability & Aptitude"] : List String),
        ',' ∉ t.data ∧ pyStrip t = t) ∧
    parse_test_type (join_test_type ["Knowledge & Skills", "Ability & Aptitude"]) =
      ["Knowledge & Skills", "Ability & Aptitude"] :=
  ⟨⟨by decide, by decide⟩, c9_test_type_round_trip _ (by decide) (by decide)⟩

/-- Claim C10: the API-path `balance_recommendations` writes a
`_test_type_key` entry into every input record and removes it only from the
records of the returned (truncated) list: after the call, a record included
in the returned list has no `_test_type_key` and every other record still
carries it, while the record's own data is unchanged in both cases; every
returned index denotes an input record. -/
theorem c10_api_balance_frame_effect (results : List ARec) (min_results max_results : Nat) :
    (∀ j ∈ (balance_recommendations_api results min_results max_results).1,
      j < results.length) ∧
    (∀ (i : Nat) (r : ARec), results[i]? = some r →
      ((balance_recommendations_api results min_results max_results).2)[i]? =
        some (⟨r, if i ∈ (balance_recommendations_api results min_results max_results).1
          then none else some (typeKey r.test_type)⟩ : KRec)) := by
  by_cases hne : results.isEmpty
  · constructor
    · intro j hj
      simp [balance_recommendations_api, hne] at hj
    · intro i r hi
      rw [List.isEmpty_iff.1 hne] at hi
      simp at hi
  · have hb : balance_recommendations_api results min_results max_results =
        (apiFinalIdx results min_results max_results,
          delKeys (apiStore results) (apiFinalIdx results min_results max_results)) := by
      simp [balance_recommendations_api, hne]
    rw [hb]
    constructor
    · exact apiFinalIdx_bound results min_results max_results
    · intro i r hi
      have hstore : (apiStore results)[i]? = some ⟨r, some (typeKey r.test_type)⟩ := by
        simp [apiStore, hi]
      rw [delKeys_getElem, hstore]
      by_cases hm : i ∈ apiFinalIdx results min_results max_results
      · rw [if_pos hm]
        simp [hm]
      · rw [if_neg hm]
        simp [hm]

/-- Witness for C10: with `max_results = 1` only one record is returned; the
record at index 2 is not returned and still carries its `_test_type_key`. -/
theorem c10_api_balance_frame_effect_witness :
    c10List[2]? = some ⟨"u3", "A3", "No", "d3", none, "Yes",
      some (TType.list ["Knowledge & Skills"])⟩ ∧
    ((balance_recommendations_api c10List 5 1).2)[2]? =
      some ⟨⟨"u3", "A3", "No", "d3", none, "Yes", some (TType.list ["Knowledge & Skills"])⟩,
        if 2 ∈ (balance_recommendations_api c10List 5 1).1 then none
        else some (typeKey (some (TType.list ["Knowledge & Skills"])))⟩ :=
  ⟨by decide, (c10_api_balance_frame_effect c10List 5 1).2 2 _ (by decide)⟩
